import Mathlib

/-!
# Shallow embedding of the collight/dns-sd core

This development embeds the parts of the mDNS/DNS-SD library that the
verified claims are about:

* `nameEquals` and the TXT codec from `src/utils/dns-utils.ts`;
* the record table (`register` / `unregister`) of `src/utils/MDNSServer.ts`;
* the `ServiceType` parser/serializer of `src/utils/ServiceType.ts`;
* the announce / probe / goodbye logic of `src/registry/Registry.ts`;
* the `Service.stop` and `Browser.start` entry points of
  `src/registry/Service.ts` and `src/browser/Browser.ts`.

JavaScript strings are modelled as Lean `String` where only (in)equality and
per-character ASCII case folding matter, and as `List Char` where the code
splits/joins on characters (service types, TXT keys).  Node `Buffer`s are
modelled as `List Nat` (byte lists).  JS `Map`s are modelled as association
lists with first-match lookup, in-place update and insertion-order append,
which is exactly the observable behaviour of `Map.get`/`Map.set`/`Map.delete`.
-/

set_option maxHeartbeats 1000000

/-! ## dns-utils.ts: nameEquals -/

/-- One step of `s.replace(/[A-Z]/g, s => s.toLowerCase())`: ASCII capital
letters are sent to their lowercase form, every other character (including
non-ASCII letters) is untouched. -/
def asciiLower (c : Char) : Char :=
  if 'A' ≤ c ∧ c ≤ 'Z' then Char.ofNat (c.toNat + 32) else c

/-- `nameEquals(a, b)` from `src/utils/dns-utils.ts`: compare two names for
equality after lowercasing ASCII `A`–`Z` only. -/
def nameEquals (a b : String) : Bool :=
  a.data.map asciiLower == b.data.map asciiLower

/-! ## MDNSServer.ts: the record table -/

/-- The `RecordType` strings this library stores (`dns-packet` record types
actually used by the code). -/
inductive RType where
  | PTR | SRV | TXT | A | AAAA
deriving DecidableEq

/-- The `data` field of an SRV record: `{ port, target }` (priority/weight are
fixed at 0 by the code and never compared). -/
structure SrvData where
  port : Nat
  target : String
deriving DecidableEq

/-- The `data` payload of a record, as a tagged variant.  `fast-deep-equal`
on these payloads coincides with structural equality. -/
inductive RData where
  | ptr (target : String)
  | srv (d : SrvData)
  | txt (bufs : List (List Nat))
  | a (addr : String)
  | aaaa (addr : String)
deriving DecidableEq

/-- An `MDNSRecord` (`StringAnswer | TxtAnswer | SrvAnswer`). -/
structure MDNSRecord where
  type : RType
  name : String
  ttl : Nat
  data : RData
deriving DecidableEq

namespace MDNSServer

/-- The `typeToRecords : Map<RecordType, MDNSRecord[]>` field, as an
association list in insertion order. -/
abbrev Table := List (RType × List MDNSRecord)

/-- `Map.get`: first (and, for a JS `Map`, only) entry with the given key. -/
def mapGet (m : Table) (t : RType) : Option (List MDNSRecord) :=
  match m with
  | [] => none
  | (k, v) :: rest => if k = t then some v else mapGet rest t

/-- `Map.set`: update the entry in place if the key is present, else append. -/
def mapSet (m : Table) (t : RType) (v : List MDNSRecord) : Table :=
  match m with
  | [] => [(t, v)]
  | (k, w) :: rest => if k = t then (k, v) :: rest else (k, w) :: mapSet rest t v

/-- `Map.delete`: remove the entry with the given key. -/
def mapDelete (m : Table) (t : RType) : Table :=
  match m with
  | [] => []
  | (k, v) :: rest => if k = t then rest else (k, v) :: mapDelete rest t

/-- `isDuplicate` from `MDNSServer.register`: same type, same name (exact
string comparison) and deeply-equal data. -/
def isDuplicate (a b : MDNSRecord) : Bool :=
  a.type == b.type && a.name == b.name && a.data == b.data

/-- The body of the `for` loop of `MDNSServer.register` for one record. -/
def registerOne (m : Table) (record : MDNSRecord) : Table :=
  let records := (mapGet m record.type).getD []
  if records.all (fun r => !isDuplicate r record) then
    mapSet m record.type (records ++ [record])
  else
    mapSet m record.type records

/-- `MDNSServer.register(records)`. -/
def register (m : Table) (records : List MDNSRecord) : Table :=
  records.foldl registerOne m

/-- The body of the `for` loop of `MDNSServer.unregister` for one record:
filter the record's type bucket by exact name inequality, keep the bucket if
non-empty, delete it otherwise. -/
def unregisterOne (m : Table) (record : MDNSRecord) : Table :=
  let records := (mapGet m record.type).getD []
  let filtered := records.filter (fun r => r.name ≠ record.name)
  if filtered.length > 0 then
    mapSet m record.type filtered
  else
    mapDelete m record.type

/-- `MDNSServer.unregister(records)`. -/
def unregister (m : Table) (records : List MDNSRecord) : Table :=
  records.foldl unregisterOne m

/-- All records held in the table, in bucket order. -/
def allRecords (m : Table) : List MDNSRecord :=
  match m with
  | [] => []
  | (_, v) :: rest => v ++ allRecords rest

/-- Number of table entries sharing the `(type, name, data)` triple of `r`. -/
def countTriple (m : Table) (r : MDNSRecord) : Nat :=
  ((allRecords m).filter (fun x => isDuplicate x r)).length

/-- A record with the given triple is present in the bucket of its type. -/
def present (m : Table) (r : MDNSRecord) : Prop :=
  ∃ x ∈ (mapGet m r.type).getD [], isDuplicate x r = true

instance (m : Table) (r : MDNSRecord) : Decidable (present m r) :=
  inferInstanceAs
    (Decidable (∃ x ∈ (mapGet m r.type).getD [], isDuplicate x r = true))

/-- Keys of the map are distinct — an intrinsic property of a JS `Map`. -/
def KeysNodup (m : Table) : Prop := (m.map Prod.fst).Nodup

instance (m : Table) : Decidable (KeysNodup m) :=
  inferInstanceAs (Decidable (m.map Prod.fst).Nodup)

/-- Each bucket holds only records of its own type (the code always uses
`record.type` as the key). -/
def BucketsTyped (m : Table) : Prop := ∀ p ∈ m, ∀ r ∈ p.2, r.type = p.1

instance (m : Table) : Decidable (BucketsTyped m) :=
  inferInstanceAs (Decidable (∀ p ∈ m, ∀ r ∈ p.2, r.type = p.1))

/-- No bucket is empty (`unregister` deletes empty buckets and `register`
never creates one). -/
def NonemptyBuckets (m : Table) : Prop := ∀ p ∈ m, p.2 ≠ []

instance (m : Table) : Decidable (NonemptyBuckets m) :=
  inferInstanceAs (Decidable (∀ p ∈ m, p.2 ≠ []))

/-- Within a bucket, no two records share a `(type, name, data)` triple. -/
def BucketsNodup (m : Table) : Prop :=
  ∀ p ∈ m, p.2.Pairwise (fun a b => isDuplicate a b = false)

instance (m : Table) : Decidable (BucketsNodup m) :=
  inferInstanceAs
    (Decidable (∀ p ∈ m, p.2.Pairwise (fun a b => isDuplicate a b = false)))

/-- The record-table invariant maintained by `register`. -/
def Inv (m : Table) : Prop := KeysNodup m ∧ BucketsTyped m ∧ BucketsNodup m

instance (m : Table) : Decidable (Inv m) :=
  inferInstanceAs (Decidable (KeysNodup m ∧ BucketsTyped m ∧ BucketsNodup m))

end MDNSServer

/-! ## ServiceType.ts

JS strings are modelled as `List Char` here because the parser splits on
characters.  `ServiceType` keeps the optional fields of the source class. -/

structure ServiceType where
  name : Option (List Char)
  protocol : Option (List Char)
  subtype : Option (List Char)
deriving DecidableEq

deriving instance DecidableEq for Except

namespace ServiceType

/-- The `sub` marker searched for by the parser. -/
def subMarker : List Char := ['s', 'u', 'b']

/-- The whitespace characters recognised by JS `String.prototype.trim`
(restricted to the ASCII ones; the labels this library builds never contain
the Unicode space characters that JS additionally trims). -/
def isJSWs (c : Char) : Bool :=
  c = ' ' || c = '\t' || c = '\n' || c = '\r' || c = '\x0b' || c = '\x0c'

/-- `p.trim()`. -/
def jsTrim (l : List Char) : List Char :=
  ((l.dropWhile isJSWs).reverse.dropWhile isJSWs).reverse

/-- `part.startsWith('_') ? part.slice(1) : part`. -/
def stripUnderscore (l : List Char) : List Char :=
  match l with
  | '_' :: t => t
  | _ => l

/-- `Array.prototype.indexOf`, with `-1` modelled as `none`: index of the
first occurrence. -/
def indexOfOpt {α : Type} [DecidableEq α] (l : List α) (x : α) : Option Nat :=
  match l with
  | [] => none
  | a :: t => if a = x then some 0 else (indexOfOpt t x).map (· + 1)

/-- `ServiceType.fromString(input)`: split on `.`, trim, strip one leading
underscore per label, then locate the `sub` marker.  Thrown exceptions are
modelled as `Except.error`. -/
def fromString (input : List Char) : Except String ServiceType :=
  if input = [] then .error "Service type string is empty"
  else
    let parts := ((input.splitOn '.').map jsTrim).map stripUnderscore
    match indexOfOpt parts subMarker with
    | some subIndex =>
      if subIndex = 0 then
        .error "Invalid service type: sub cannot be first element"
      else
        match parts[subIndex + 1]?, parts[subIndex + 2]? with
        | some n, some p => .ok ⟨some n, some p, parts[subIndex - 1]?⟩
        | _, _ => .error "Invalid service type format: missing name or protocol"
    | none =>
      match parts[0]?, parts[1]? with
      | some n, some p => .ok ⟨some n, some p, none⟩
      | _, _ => .error "Invalid service type format: missing name or protocol"

/-- `ServiceType.prototype.toString()`: push `_subtype`, `_sub`, `_name`,
`_protocol` (each when defined) and join with `.`. -/
def toString (t : ServiceType) : List Char :=
  let parts : List (List Char) :=
    (match t.subtype with
     | some s => [('_' :: s), ('_' :: subMarker)]
     | none => []) ++
    (match t.name with
     | some n => ['_' :: n]
     | none => []) ++
    (match t.protocol with
     | some p => ['_' :: p]
     | none => [])
  List.intercalate ['.'] parts

end ServiceType

/-! ## dns-utils.ts: TXT codec

Node `Buffer`s are byte lists.  `Buffer.from(string)` is UTF-8 encoding,
`buf.toString('ascii')` masks each byte with `0x7F` and reads it as a code
point, and `buf.toString('utf8')` is UTF-8 decoding (lossy on invalid input).
The UTF-8 decoder below is exact on valid UTF-8 — which is all the round-trip
proofs evaluate it on — and emits U+FFFD on the malformed sequences where
Node would produce replacement characters too. -/

/-- UTF-8 encoding of one character (`Buffer.from` on a 1-char string). -/
def utf8EncodeChar (c : Char) : List Nat :=
  let n := c.toNat
  if n < 0x80 then [n]
  else if n < 0x800 then [0xC0 + n / 64, 0x80 + n % 64]
  else if n < 0x10000 then [0xE0 + n / 4096, 0x80 + n / 64 % 64, 0x80 + n % 64]
  else [0xF0 + n / 262144, 0x80 + n / 4096 % 64, 0x80 + n / 64 % 64, 0x80 + n % 64]

/-- UTF-8 encoding of a string (`Buffer.from(s)`). -/
def utf8Encode (s : List Char) : List Nat :=
  match s with
  | [] => []
  | c :: cs => utf8EncodeChar c ++ utf8Encode cs

/-- Is `b` a UTF-8 continuation byte? -/
def isCont (b : Nat) : Bool := 128 ≤ b && b < 192

/-- The U+FFFD replacement character Node emits for malformed sequences. -/
def replChar : Char := Char.ofNat 0xFFFD

/-- Fuel-driven UTF-8 decoder.  The fuel only bounds the recursion (each step
consumes at least one byte and one unit of fuel); `utf8Decode` passes the
byte count, which always suffices. -/
def utf8DecodeGo : Nat → List Nat → List Char
  | 0, _ => []
  | _ + 1, [] => []
  | fuel + 1, b :: rest =>
    if b < 0x80 then Char.ofNat b :: utf8DecodeGo fuel rest
    else if b < 0xC0 then replChar :: utf8DecodeGo fuel rest
    else if b < 0xE0 then
      match rest with
      | b1 :: rest1 =>
        if isCont b1 then
          Char.ofNat ((b - 0xC0) * 64 + (b1 - 0x80)) :: utf8DecodeGo fuel rest1
        else replChar :: utf8DecodeGo fuel rest
      | [] => [replChar]
    else if b < 0xF0 then
      match rest with
      | b1 :: b2 :: rest2 =>
        if isCont b1 && isCont b2 then
          Char.ofNat ((b - 0xE0) * 4096 + (b1 - 0x80) * 64 + (b2 - 0x80)) ::
            utf8DecodeGo fuel rest2
        else replChar :: utf8DecodeGo fuel rest
      | _ => [replChar]
    else
      match rest with
      | b1 :: b2 :: b3 :: rest3 =>
        if isCont b1 && isCont b2 && isCont b3 then
          Char.ofNat ((b - 0xF0) * 262144 + (b1 - 0x80) * 4096 +
              (b2 - 0x80) * 64 + (b3 - 0x80)) :: utf8DecodeGo fuel rest3
        else replChar :: utf8DecodeGo fuel rest
      | _ => [replChar]

/-- `buf.toString('utf8')`. -/
def utf8Decode (l : List Nat) : List Char :=
  utf8DecodeGo l.length l

/-- One character of `buf.toString('ascii')`: the byte masked with `0x7F`. -/
def asciiChar (b : Nat) : Char := Char.ofNat (b % 128)

/-- `encodeTXT(data)` from `src/utils/dns-utils.ts`, restricted to string
values (the scope of the claims): one buffer per entry, holding the UTF-8
bytes of `key=value`, in insertion order. -/
def encodeTXT (data : List (List Char × List Char)) : List (List Nat) :=
  data.map (fun kv => utf8Encode (kv.1 ++ '=' :: kv.2))

/-- The inner `decode` helper of `decodeTXT` for `binary = false`, split into
the key (characters of the ASCII view before the first `=`) and the raw
value bytes after it; no `=` yields the whole ASCII view as key and an
empty value. -/
def decodeEntry (buf : List Nat) : List Char × List Nat :=
  let asciiStr := buf.map asciiChar
  match ServiceType.indexOfOpt asciiStr '=' with
  | none => (asciiStr, [])
  | some eqIndex => (asciiStr.take eqIndex, buf.drop (eqIndex + 1))

/-- The key/value pair `decode` produces for one buffer (`binary = false`,
so the value bytes are decoded as UTF-8). -/
def decodePair (buf : List Nat) : List Char × List Char :=
  let kv := decodeEntry buf
  (kv.1, utf8Decode kv.2)

/-- The single-entry object `decode` returns (`{ [key]: value }`). -/
def decodeOne (buf : List Nat) : List (List Char × List Char) :=
  [decodePair buf]

/-- `result[key] = value` on a JS object: overwrite in place if the key is
present, else append. -/
def insertEntry (m : List (List Char × List Char)) (k v : List Char) :
    List (List Char × List Char) :=
  match m with
  | [] => [(k, v)]
  | (k1, v1) :: rest =>
    if k1 = k then (k1, v) :: rest else (k1, v1) :: insertEntry rest k v

/-- `decodeTXT(buffers, false)` from `src/utils/dns-utils.ts`: fold the
per-buffer single-entry objects into one result object.  The source guards
with `entries.length === 1`, which is mirrored by the `match`; since
`decode` always returns a single-entry object the guard always passes. -/
def decodeTXT (bufs : List (List Nat)) : List (List Char × List Char) :=
  bufs.foldl
    (fun result buf =>
      match decodeOne buf with
      | [(k, v)] => insertEntry result k v
      | _ => result)
    []

/-- `result[key]` on the decoded object: first-match association lookup. -/
def lookupEntry (m : List (List Char × List Char)) (k : List Char) :
    Option (List Char) :=
  match m with
  | [] => none
  | (k1, v1) :: rest => if k1 = k then some v1 else lookupEntry rest k

/-! ## Registry.ts: announce scheduling -/

namespace Registry

def REANNOUNCE_MAX_MS : Nat := 60 * 60 * 1000

def REANNOUNCE_FACTOR : Nat := 3

/-- The waits (in ms) between consecutive transmissions produced by the
`broadcast` loop of `Registry.announce`, for a service that stays started,
is never destroyed and sees no transport error.  Each respond callback runs
`delay = delay * REANNOUNCE_FACTOR` and schedules the next broadcast after
the new `delay` iff `delay < REANNOUNCE_MAX_MS`.  The structural `fuel`
argument only bounds the recursion: `delay` at least triples each step, so
`REANNOUNCE_MAX_MS - delay` steps always suffice (it is the well-founded
measure of the loop). -/
def announceWaitsGo : Nat → Nat → List Nat
  | 0, _ => []
  | fuel + 1, delay =>
    let d := delay * REANNOUNCE_FACTOR
    if d < REANNOUNCE_MAX_MS then d :: announceWaitsGo fuel d else []

/-- The wait sequence of `Registry.announce` starting from the initial
`let delay = 1000` of the source (`announce` transmits once immediately,
then once after each wait in this list). -/
def announceWaits (delay : Nat) : List Nat :=
  announceWaitsGo (REANNOUNCE_MAX_MS - delay) delay

/-- Modelled from the spec: the wait sequence the specification describes —
"re-transmit after `delay` ms with `delay` starting at 1000 ms and multiplied
by 3 each iteration (1s, 3s, 9s, 27s, ...). Stop scheduling once
`delay ≥ 3,600,000 ms`" — i.e. the current `delay` is waited first and
multiplied afterwards. -/
def specAnnounceWaitsGo : Nat → Nat → List Nat
  | 0, _ => []
  | fuel + 1, delay =>
    if delay < REANNOUNCE_MAX_MS then
      delay :: specAnnounceWaitsGo fuel (delay * REANNOUNCE_FACTOR)
    else []

/-- The spec's claimed wait sequence from a starting delay. -/
def specAnnounceWaits (delay : Nat) : List Nat :=
  specAnnounceWaitsGo (REANNOUNCE_MAX_MS - delay) delay

/-! ## Registry.ts: probe conflict detection -/

/-- A decoded mDNS response packet as the probe listener sees it. -/
structure ProbePacket where
  answers : List MDNSRecord
  additionals : List MDNSRecord

/-- The state of one probe session that the `onresponse` listener interacts
with: whether the first probe query has been sent (`sent`) and whether a
conflict has been resolved (`done(true)` has run). -/
structure ProbeState where
  sent : Bool
  conflict : Bool
deriving DecidableEq

/-- The `onresponse` listener of `Registry.probe`: responses received before
the first probe packet is sent are silently ignored; afterwards a response
conflicts iff some answer or additional has a name that `nameEquals` the
service fqdn, in which case `done(true)` records the conflict. -/
def probeOnResponse (fqdn : String) (st : ProbeState) (p : ProbePacket) :
    ProbeState :=
  if st.sent = false then st
  else if p.answers.any (fun a => nameEquals a.name fqdn) ||
      p.additionals.any (fun a => nameEquals a.name fqdn) then
    { st with conflict := true }
  else st

/-- Events observable by one probe session: the completion of a probe-query
send (which sets `sent = true` in its callback) and the delivery of a
response packet. -/
inductive ProbeEvent where
  | probeSent
  | response (p : ProbePacket)

/-- One step of the probe session. -/
def probeStep (fqdn : String) (st : ProbeState) : ProbeEvent → ProbeState
  | .probeSent => { st with sent := true }
  | .response p => probeOnResponse fqdn st p

/-- A probe session over a sequence of events, from the initial state
(`sent = false`, no conflict). -/
def probeRun (fqdn : String) (events : List ProbeEvent) : ProbeState :=
  events.foldl (probeStep fqdn) ⟨false, false⟩

end Registry

/-! ## Service.ts: stop / goodbye -/

namespace Service

/-- The lifecycle flags of a `Service`. -/
structure State where
  started : Bool
  published : Bool
  destroyed : Bool
deriving DecidableEq

/-- `Service.stop()` followed by `Registry.onServiceStop` and
`Registry.goodbye([service])`, returning the new state and the number of
`down` events emitted.  `stop` is a no-op unless `started`; `goodbye`
filters for `published` services and returns early when there are none;
otherwise it unregisters the (always non-empty) record set, transmits once
and, in the respond callback — which the transport invokes exactly once —
sets `published = false` and emits one `down` per published service. -/
def stop (s : State) : State × Nat :=
  if s.started then
    let s1 : State := { s with started := false }
    if s1.published then ({ s1 with published := false }, 1)
    else (s1, 0)
  else (s, 0)

end Service

/-! ## Browser.ts: start -/

namespace Browser

/-- The `name` field of a `BrowserFilter`: a string or a `RegExp`.  Only
`typeof name === 'string'` is inspected by `queryNames`, so the regex payload
is not modelled. -/
inductive NameMatcher where
  | exact (s : List Char)
  | regex
deriving DecidableEq

/-- The TXT value matchers of a `BrowserFilter` (string equality or regex). -/
inductive TxtMatcher where
  | str (s : List Char)
  | regex
deriving DecidableEq

/-- `BrowserFilter` from `src/browser/Browser.ts`. -/
structure Filter where
  protocol : List Char
  type : List Char
  subtypes : Option (List (List Char))
  name : Option NameMatcher
  txt : Option (List (List Char × TxtMatcher))
deriving DecidableEq

def TLD : List Char := ['.', 'l', 'o', 'c', 'a', 'l']

def WILDCARD : List Char :=
  ['_', 's', 'e', 'r', 'v', 'i', 'c', 'e', 's'] ++
  ['.', '_', 'd', 'n', 's', '-', 's', 'd'] ++
  ['.', '_', 'u', 'd', 'p'] ++ TLD

/-- A discovered service as far as `Browser.start` is concerned: `start`
never reads or writes the entries of `services`, so only its identity is
needed here. -/
structure DiscoveredService where
  fqdn : String
deriving DecidableEq

/-- The `queryNames` getter: one PTR query name per subtype (or a single
name without subtype), prefixed by the instance name when the name filter is
an exact string; the wildcard name when there is no filter. -/
def queryNames (filter : Option Filter) : List (List Char) :=
  match filter with
  | none => [WILDCARD]
  | some f =>
    let types : List (List Char) :=
      match f.subtypes with
      | some subs =>
        if subs.length > 0 then
          subs.map (fun subtype =>
            ServiceType.toString ⟨some f.type, some f.protocol, some subtype⟩)
        else [ServiceType.toString ⟨some f.type, some f.protocol, none⟩]
      | none => [ServiceType.toString ⟨some f.type, some f.protocol, none⟩]
    types.map (fun typeStr =>
      match f.name with
      | some (.exact n) => n ++ '.' :: (typeStr ++ TLD)
      | _ => typeStr ++ TLD)

/-- The observable state of a `Browser`: whether `onresponse` is set
(`listening`), the known services, plus an effect log of how many response
listeners were registered on the shared mDNS emitter and which PTR queries
were issued. -/
structure State where
  listening : Bool
  services : List DiscoveredService
  listenersRegistered : Nat
  queriesSent : List (List Char)
deriving DecidableEq

/-- `Browser.update()`: issue one PTR query per query name. -/
def update (filter : Option Filter) (b : State) : State :=
  { b with queriesSent := b.queriesSent ++ queryNames filter }

/-- `Browser.start()`: a no-op when `onresponse` is already set; otherwise
install the response listener and trigger the initial query. -/
def start (filter : Option Filter) (b : State) : State :=
  if b.listening then b
  else
    update filter
      { b with listening := true,
               listenersRegistered := b.listenersRegistered + 1 }

end Browser

/-! # Theorems -/

/-! ## Record-table lemmas (MDNSServer) -/

namespace MDNSServer

theorem mapGet_mem {m : Table} {t : RType} {v : List MDNSRecord}
    (h : mapGet m t = some v) : (t, v) ∈ m := by
  induction m with
  | nil => simp [mapGet] at h
  | cons p rest ih =>
    obtain ⟨k, w⟩ := p
    simp only [mapGet] at h
    by_cases hk : k = t
    · rw [if_pos hk] at h
      cases h
      subst hk
      exact List.mem_cons_self _ _
    · rw [if_neg hk] at h
      exact List.mem_cons_of_mem _ (ih h)

theorem mapGet_eq_none_of_not_mem_keys {m : Table} {t : RType}
    (h : t ∉ m.map Prod.fst) : mapGet m t = none := by
  induction m with
  | nil => rfl
  | cons p rest ih =>
    obtain ⟨k, w⟩ := p
    simp only [List.map_cons, List.mem_cons] at h
    push_neg at h
    have hk : ¬ (k = t) := fun hk => h.1 hk.symm
    simp only [mapGet, if_neg hk]
    exact ih h.2

theorem mapGet_mapSet_self (m : Table) (t : RType) (v : List MDNSRecord) :
    mapGet (mapSet m t v) t = some v := by
  induction m with
  | nil => simp [mapGet, mapSet]
  | cons p rest ih =>
    obtain ⟨k, w⟩ := p
    by_cases hk : k = t <;> simp [mapGet, mapSet, hk, ih]

theorem mapGet_mapSet_ne (m : Table) {t t' : RType} (v : List MDNSRecord)
    (h : t' ≠ t) : mapGet (mapSet m t v) t' = mapGet m t' := by
  have hne : t ≠ t' := fun hk => h hk.symm
  induction m with
  | nil => simp [mapGet, mapSet, hne]
  | cons p rest ih =>
    obtain ⟨k, w⟩ := p
    by_cases hk : k = t
    · subst hk
      simp [mapGet, mapSet, hne]
    · simp [mapGet, mapSet, hk, ih]

theorem mapSet_mapGet_self {m : Table} {t : RType} {v : List MDNSRecord}
    (h : mapGet m t = some v) : mapSet m t v = m := by
  induction m with
  | nil => simp [mapGet] at h
  | cons p rest ih =>
    obtain ⟨k, w⟩ := p
    simp only [mapGet] at h
    by_cases hk : k = t
    · rw [if_pos hk] at h
      cases h
      simp [mapSet, hk]
    · rw [if_neg hk] at h
      simp [mapSet, hk, ih h]

theorem mapGet_mapDelete_self {m : Table} (t : RType) (h : KeysNodup m) :
    mapGet (mapDelete m t) t = none := by
  induction m with
  | nil => rfl
  | cons p rest ih =>
    obtain ⟨k, w⟩ := p
    simp only [KeysNodup, List.map_cons, List.nodup_cons] at h
    by_cases hk : k = t
    · simp only [mapDelete, if_pos hk]
      subst hk
      exact mapGet_eq_none_of_not_mem_keys h.1
    · simp only [mapDelete, if_neg hk, mapGet, if_neg hk]
      exact ih h.2

theorem mapGet_mapDelete_ne (m : Table) {t t' : RType} (h : t' ≠ t) :
    mapGet (mapDelete m t) t' = mapGet m t' := by
  have hne : t ≠ t' := fun hk => h hk.symm
  induction m with
  | nil => rfl
  | cons p rest ih =>
    obtain ⟨k, w⟩ := p
    by_cases hk : k = t
    · subst hk
      simp [mapDelete, mapGet, hne]
    · simp [mapDelete, mapGet, hk, ih]

theorem mem_keys_mapSet {m : Table} {t x : RType} {v : List MDNSRecord}
    (h : x ∈ (mapSet m t v).map Prod.fst) : x = t ∨ x ∈ m.map Prod.fst := by
  induction m with
  | nil => simp [mapSet] at h; simp [h]
  | cons p rest ih =>
    obtain ⟨k, w⟩ := p
    by_cases hk : k = t
    · subst hk
      simpa [mapSet] using h
    · simp only [mapSet, if_neg hk, List.map_cons, List.mem_cons] at h ⊢
      rcases h with h | h
      · exact Or.inr (Or.inl h)
      · rcases ih h with h | h
        · exact Or.inl h
        · exact Or.inr (Or.inr h)

theorem keysNodup_mapSet {m : Table} (t : RType) (v : List MDNSRecord)
    (h : KeysNodup m) : KeysNodup (mapSet m t v) := by
  induction m with
  | nil => simp [KeysNodup, mapSet]
  | cons p rest ih =>
    obtain ⟨k, w⟩ := p
    simp only [KeysNodup, List.map_cons, List.nodup_cons] at h
    by_cases hk : k = t
    · subst hk
      simpa [KeysNodup, mapSet] using h
    · simp only [KeysNodup, mapSet, if_neg hk, List.map_cons, List.nodup_cons]
      refine ⟨fun hmem => ?_, ih h.2⟩
      rcases mem_keys_mapSet hmem with h1 | h1
      · exact hk h1
      · exact h.1 h1

theorem mem_keys_mapDelete {m : Table} {t x : RType}
    (h : x ∈ (mapDelete m t).map Prod.fst) : x ∈ m.map Prod.fst := by
  induction m with
  | nil => simpa [mapDelete] using h
  | cons p rest ih =>
    obtain ⟨k, w⟩ := p
    by_cases hk : k = t
    · subst hk
      simp only [mapDelete, if_pos rfl] at h
      exact List.mem_cons_of_mem _ h
    · simp only [mapDelete, if_neg hk, List.map_cons, List.mem_cons] at h ⊢
      rcases h with h | h
      · exact Or.inl h
      · exact Or.inr (ih h)

theorem keysNodup_mapDelete {m : Table} (t : RType) (h : KeysNodup m) :
    KeysNodup (mapDelete m t) := by
  induction m with
  | nil => exact h
  | cons p rest ih =>
    obtain ⟨k, w⟩ := p
    simp only [KeysNodup, List.map_cons, List.nodup_cons] at h
    by_cases hk : k = t
    · simpa [mapDelete, hk, KeysNodup] using h.2
    · simp only [KeysNodup, mapDelete, if_neg hk, List.map_cons, List.nodup_cons]
      exact ⟨fun hmem => h.1 (mem_keys_mapDelete hmem), ih h.2⟩

theorem mem_mapSet {m : Table} {t : RType} {v : List MDNSRecord} {p}
    (h : p ∈ mapSet m t v) : p = (t, v) ∨ p ∈ m := by
  induction m with
  | nil => simp [mapSet] at h; simp [h]
  | cons q rest ih =>
    obtain ⟨k, w⟩ := q
    by_cases hk : k = t
    · subst hk
      simp only [mapSet, if_pos trivial, eq_self_iff_true, if_true,
        List.mem_cons] at h
      rcases h with h1 | h1
      · exact Or.inl h1
      · exact Or.inr (List.mem_cons_of_mem _ h1)
    · simp only [mapSet, if_neg hk, List.mem_cons] at h ⊢
      rcases h with h1 | h1
      · exact Or.inr (Or.inl h1)
      · rcases ih h1 with h2 | h2
        · exact Or.inl h2
        · exact Or.inr (Or.inr h2)

theorem mem_mapDelete {m : Table} {t : RType} {p}
    (h : p ∈ mapDelete m t) : p ∈ m := by
  induction m with
  | nil => simpa [mapDelete] using h
  | cons q rest ih =>
    obtain ⟨k, w⟩ := q
    by_cases hk : k = t
    · subst hk
      simp only [mapDelete, if_pos rfl] at h
      exact List.mem_cons_of_mem _ h
    · simp only [mapDelete, if_neg hk, List.mem_cons] at h ⊢
      rcases h with h | h
      · exact Or.inl h
      · exact Or.inr (ih h)

end MDNSServer

/-! ## Unregister characterization (for C1) -/

namespace MDNSServer

theorem keysNodup_unregisterOne {m : Table} (r : MDNSRecord)
    (h : KeysNodup m) : KeysNodup (unregisterOne m r) := by
  unfold unregisterOne
  by_cases hl : (((mapGet m r.type).getD []).filter
      (fun x => x.name ≠ r.name)).length > 0
  · simp only [if_pos hl]
    exact keysNodup_mapSet _ _ h
  · simp only [if_neg hl]
    exact keysNodup_mapDelete _ h

theorem nonempty_unregisterOne {m : Table} (r : MDNSRecord)
    (h : NonemptyBuckets m) : NonemptyBuckets (unregisterOne m r) := by
  unfold unregisterOne
  by_cases hl : (((mapGet m r.type).getD []).filter
      (fun x => x.name ≠ r.name)).length > 0
  · simp only [if_pos hl]
    intro p hp
    rcases mem_mapSet hp with h1 | h1
    · rw [h1]
      exact List.length_pos.mp hl
    · exact h p h1
  · simp only [if_neg hl]
    intro p hp
    exact h p (mem_mapDelete hp)

theorem unregisterOne_bucket {m : Table} (r : MDNSRecord)
    (hk : KeysNodup m) (t : RType) :
    (mapGet (unregisterOne m r) t).getD [] =
      if t = r.type then
        ((mapGet m t).getD []).filter (fun x => x.name ≠ r.name)
      else (mapGet m t).getD [] := by
  unfold unregisterOne
  by_cases hl : (((mapGet m r.type).getD []).filter
      (fun x => x.name ≠ r.name)).length > 0
  · simp only [if_pos hl]
    by_cases ht : t = r.type
    · subst ht
      rw [mapGet_mapSet_self]
      simp [if_pos rfl]
    · rw [mapGet_mapSet_ne _ _ ht, if_neg ht]
  · simp only [if_neg hl]
    by_cases ht : t = r.type
    · subst ht
      rw [mapGet_mapDelete_self _ hk, if_pos rfl]
      have hlen : (((mapGet m r.type).getD []).filter
          (fun x => x.name ≠ r.name)).length = 0 := by omega
      have hnil := List.length_eq_zero.mp hlen
      rw [hnil]
      rfl
    · rw [mapGet_mapDelete_ne _ ht, if_neg ht]

theorem unregister_bucket_mem (rs : List MDNSRecord) :
    ∀ (m : Table), KeysNodup m → ∀ (t : RType) (x : MDNSRecord),
      (x ∈ (mapGet (unregister m rs) t).getD [] ↔
        (x ∈ (mapGet m t).getD [] ∧
          ∀ rp ∈ rs, rp.type = t → x.name ≠ rp.name)) := by
  induction rs with
  | nil => intro m _ t x; simp [unregister]
  | cons r rest ih =>
    intro m hk t x
    have hstep : unregister m (r :: rest) = unregister (unregisterOne m r) rest := rfl
    rw [hstep, ih (unregisterOne m r) (keysNodup_unregisterOne r hk) t x,
      unregisterOne_bucket r hk t]
    by_cases ht : t = r.type
    · subst ht
      rw [if_pos rfl]
      simp only [List.mem_filter, List.mem_cons, decide_not]
      constructor
      · rintro ⟨⟨hx, hname⟩, hrest⟩
        refine ⟨hx, ?_⟩
        intro rp hrp htype
        rcases hrp with hrp | hrp
        · subst hrp
          simpa using hname
        · exact hrest rp hrp htype
      · rintro ⟨hx, hall⟩
        refine ⟨⟨hx, ?_⟩, ?_⟩
        · simpa using hall r (Or.inl rfl) rfl
        · intro rp hrp htype
          exact hall rp (Or.inr hrp) htype
    · rw [if_neg ht]
      simp only [List.mem_cons]
      constructor
      · rintro ⟨hx, hrest⟩
        refine ⟨hx, ?_⟩
        intro rp hrp htype
        rcases hrp with hrp | hrp
        · subst hrp
          exact absurd htype (fun hh => ht hh.symm)
        · exact hrest rp hrp htype
      · rintro ⟨hx, hall⟩
        exact ⟨hx, fun rp hrp htype => hall rp (Or.inr hrp) htype⟩

theorem unregister_keysNodup {m : Table} (rs : List MDNSRecord)
    (h : KeysNodup m) : KeysNodup (unregister m rs) := by
  induction rs generalizing m with
  | nil => exact h
  | cons r rest ih => exact ih (keysNodup_unregisterOne r h)

theorem unregister_nonempty {m : Table} (rs : List MDNSRecord)
    (hk : KeysNodup m) (h : NonemptyBuckets m) :
    NonemptyBuckets (unregister m rs) := by
  induction rs generalizing m with
  | nil => exact h
  | cons r rest ih =>
    exact ih (keysNodup_unregisterOne r hk) (nonempty_unregisterOne r h)

end MDNSServer

/-! ## Register characterization (for C6) -/

namespace MDNSServer

theorem isDuplicate_self (r : MDNSRecord) : isDuplicate r r = true := by
  simp [isDuplicate]

theorem isDuplicate_trans {a b r : MDNSRecord} (h1 : isDuplicate a r = true)
    (h2 : isDuplicate b r = true) : isDuplicate a b = true := by
  simp only [isDuplicate, Bool.and_eq_true, beq_iff_eq] at h1 h2 ⊢
  exact ⟨⟨h1.1.1.trans h2.1.1.symm, h1.1.2.trans h2.1.2.symm⟩,
    h1.2.trans h2.2.symm⟩

theorem registerOne_present (m : Table) (r : MDNSRecord) :
    present (registerOne m r) r := by
  unfold registerOne
  by_cases hall : ((mapGet m r.type).getD []).all
      (fun x => !isDuplicate x r) = true
  · rw [if_pos hall]
    refine ⟨r, ?_, isDuplicate_self r⟩
    rw [mapGet_mapSet_self]
    simp
  · rw [if_neg hall]
    rw [List.all_eq_true] at hall
    push_neg at hall
    obtain ⟨x, hx, hdup⟩ := hall
    refine ⟨x, ?_, by simpa using hdup⟩
    rw [mapGet_mapSet_self]
    exact hx

theorem registerOne_present_mono {m : Table} {q : MDNSRecord}
    (r : MDNSRecord) (h : present m q) : present (registerOne m r) q := by
  obtain ⟨x, hx, hdup⟩ := h
  unfold registerOne
  by_cases hall : ((mapGet m r.type).getD []).all
      (fun x => !isDuplicate x r) = true
  · rw [if_pos hall]
    by_cases ht : q.type = r.type
    · refine ⟨x, ?_, hdup⟩
      rw [ht, mapGet_mapSet_self]
      refine List.mem_append_left _ ?_
      rw [← ht]
      exact hx
    · refine ⟨x, ?_, hdup⟩
      rw [mapGet_mapSet_ne _ _ ht]
      exact hx
  · rw [if_neg hall]
    by_cases ht : q.type = r.type
    · refine ⟨x, ?_, hdup⟩
      rw [ht, mapGet_mapSet_self]
      rw [← ht]
      exact hx
    · refine ⟨x, ?_, hdup⟩
      rw [mapGet_mapSet_ne _ _ ht]
      exact hx

theorem register_present_mono {m : Table} {q : MDNSRecord}
    (rs : List MDNSRecord) (h : present m q) : present (register m rs) q := by
  induction rs generalizing m with
  | nil => exact h
  | cons r rest ih => exact ih (registerOne_present_mono r h)

theorem register_present (rs : List MDNSRecord) :
    ∀ (m : Table), ∀ r ∈ rs, present (register m rs) r := by
  induction rs with
  | nil =>
    intro m r hr
    cases hr
  | cons a rest ih =>
    intro m r hr
    have hstep : register m (a :: rest) = register (registerOne m a) rest := rfl
    rw [hstep]
    rcases List.mem_cons.1 hr with h1 | h1
    · subst h1
      exact register_present_mono rest (registerOne_present m r)
    · exact ih (registerOne m a) r h1

theorem registerOne_eq_of_present {m : Table} {r : MDNSRecord}
    (h : present m r) : registerOne m r = m := by
  obtain ⟨x, hx, hdup⟩ := h
  unfold registerOne
  have hall : ¬ (((mapGet m r.type).getD []).all
      (fun y => !isDuplicate y r) = true) := by
    rw [List.all_eq_true]
    push_neg
    exact ⟨x, hx, by simp [hdup]⟩
  rw [if_neg hall]
  cases hg : mapGet m r.type with
  | none =>
    rw [hg] at hx
    cases hx
  | some l =>
    exact mapSet_mapGet_self hg

theorem register_eq_of_all_present {m : Table} (rs : List MDNSRecord)
    (h : ∀ r ∈ rs, present m r) : register m rs = m := by
  induction rs with
  | nil => rfl
  | cons a rest ih =>
    have h1 : registerOne m a = m :=
      registerOne_eq_of_present (h a (List.mem_cons_self a rest))
    have hstep : register m (a :: rest) = register (registerOne m a) rest := rfl
    rw [hstep, h1]
    exact ih (fun r hr => h r (List.mem_cons_of_mem _ hr))

theorem registerOne_inv {m : Table} (r : MDNSRecord) (h : Inv m) :
    Inv (registerOne m r) := by
  obtain ⟨hk, hbt, hbn⟩ := h
  unfold registerOne
  by_cases hall : ((mapGet m r.type).getD []).all
      (fun x => !isDuplicate x r) = true
  · rw [if_pos hall]
    refine ⟨keysNodup_mapSet _ _ hk, ?_, ?_⟩
    · intro p hp
      rcases mem_mapSet hp with h1 | h1
      · subst h1
        intro x hx
        rcases List.mem_append.1 hx with h2 | h2
        · cases hg : mapGet m r.type with
          | none =>
            rw [hg] at h2
            cases h2
          | some l =>
            rw [hg] at h2
            exact hbt (r.type, l) (mapGet_mem hg) x h2
        · rw [List.mem_singleton.1 h2]
      · exact hbt p h1
    · intro p hp
      rcases mem_mapSet hp with h1 | h1
      · subst h1
        rw [List.pairwise_append]
        refine ⟨?_, List.pairwise_singleton _ _, ?_⟩
        · cases hg : mapGet m r.type with
          | none => exact List.Pairwise.nil
          | some l => exact hbn (r.type, l) (mapGet_mem hg)
        · intro a ha b hb
          rw [List.mem_singleton.1 hb]
          rw [List.all_eq_true] at hall
          simpa using hall a ha
      · exact hbn p h1
  · rw [if_neg hall]
    refine ⟨keysNodup_mapSet _ _ hk, ?_, ?_⟩
    · intro p hp
      rcases mem_mapSet hp with h1 | h1
      · subst h1
        intro x hx
        cases hg : mapGet m r.type with
        | none =>
          rw [hg] at hx
          cases hx
        | some l =>
          rw [hg] at hx
          exact hbt (r.type, l) (mapGet_mem hg) x hx
      · exact hbt p h1
    · intro p hp
      rcases mem_mapSet hp with h1 | h1
      · subst h1
        cases hg : mapGet m r.type with
        | none => exact List.Pairwise.nil
        | some l => exact hbn (r.type, l) (mapGet_mem hg)
      · exact hbn p h1

theorem register_inv {m : Table} (rs : List MDNSRecord) (h : Inv m) :
    Inv (register m rs) := by
  induction rs generalizing m with
  | nil => exact h
  | cons r rest ih => exact ih (registerOne_inv r h)

theorem mem_allRecords {m : Table} {x : MDNSRecord} :
    x ∈ allRecords m ↔ ∃ p ∈ m, x ∈ p.2 := by
  induction m with
  | nil => simp [allRecords]
  | cons p rest ih =>
    obtain ⟨k, v⟩ := p
    simp only [allRecords]
    constructor
    · intro h
      rcases List.mem_append.1 h with h1 | h1
      · exact ⟨(k, v), List.mem_cons_self _ _, h1⟩
      · obtain ⟨q, hq, hx⟩ := ih.1 h1
        exact ⟨q, List.mem_cons_of_mem _ hq, hx⟩
    · rintro ⟨q, hq, hx⟩
      rcases List.mem_cons.1 hq with h1 | h1
      · subst h1
        exact List.mem_append.2 (Or.inl hx)
      · exact List.mem_append.2 (Or.inr (ih.2 ⟨q, h1, hx⟩))

theorem inv_pairwise_allRecords :
    ∀ (m : Table), Inv m →
      (allRecords m).Pairwise (fun a b => isDuplicate a b = false) := by
  intro m
  induction m with
  | nil =>
    intro _
    exact List.Pairwise.nil
  | cons p rest ih =>
    rintro ⟨hk, hbt, hbn⟩
    obtain ⟨k, v⟩ := p
    simp only [KeysNodup, List.map_cons, List.nodup_cons] at hk
    have hInvRest : Inv rest :=
      ⟨hk.2, fun q hq => hbt q (List.mem_cons_of_mem _ hq),
       fun q hq => hbn q (List.mem_cons_of_mem _ hq)⟩
    simp only [allRecords]
    rw [List.pairwise_append]
    refine ⟨hbn (k, v) (List.mem_cons_self _ _), ih hInvRest, ?_⟩
    intro a ha b hb
    obtain ⟨q, hq, hbq⟩ := mem_allRecords.1 hb
    have hat : a.type = k := hbt (k, v) (List.mem_cons_self _ _) a ha
    have hbt2 : b.type = q.1 := hbt q (List.mem_cons_of_mem _ hq) b hbq
    have hkq : q.1 ≠ k := by
      intro he
      exact hk.1 (he ▸ List.mem_map_of_mem Prod.fst hq)
    have htype : (a.type == b.type) = false := by
      rw [hat, hbt2]
      simp [beq_eq_false_iff_ne]
      exact fun he => hkq he.symm
    simp [isDuplicate, htype]

theorem length_filter_le_one_of_pairwise {l : List MDNSRecord}
    (h : l.Pairwise (fun a b => isDuplicate a b = false)) (r : MDNSRecord) :
    (l.filter (fun x => isDuplicate x r)).length ≤ 1 := by
  induction l with
  | nil => simp
  | cons a t ih =>
    rw [List.pairwise_cons] at h
    by_cases hd : isDuplicate a r = true
    · have hcons : List.filter (fun x => isDuplicate x r) (a :: t) =
          a :: List.filter (fun x => isDuplicate x r) t := by
        simp [List.filter_cons, hd]
      have ht : t.filter (fun x => isDuplicate x r) = [] := by
        rw [List.filter_eq_nil_iff]
        intro b hb hbr
        exact absurd (isDuplicate_trans hd hbr) (by simp [h.1 b hb])
      rw [hcons, ht]
      simp
    · have hd2 : isDuplicate a r = false := by
        revert hd
        cases isDuplicate a r <;> simp
      have hcons : List.filter (fun x => isDuplicate x r) (a :: t) =
          List.filter (fun x => isDuplicate x r) t := by
        simp [List.filter_cons, hd2]
      rw [hcons]
      exact ih h.2

theorem countTriple_eq_one_of_present {m : Table} {r : MDNSRecord}
    (hinv : Inv m) (hp : present m r) : countTriple m r = 1 := by
  have hle : countTriple m r ≤ 1 :=
    length_filter_le_one_of_pairwise (inv_pairwise_allRecords m hinv) r
  have hge : 1 ≤ countTriple m r := by
    obtain ⟨x, hx, hdup⟩ := hp
    have hxall : x ∈ allRecords m := by
      cases hg : mapGet m r.type with
      | none =>
        rw [hg] at hx
        cases hx
      | some l =>
        rw [hg] at hx
        exact mem_allRecords.2 ⟨(r.type, l), mapGet_mem hg, hx⟩
    have hmem : x ∈ (allRecords m).filter (fun y => isDuplicate y r) :=
      List.mem_filter.2 ⟨hxall, hdup⟩
    exact List.length_pos.2 (List.ne_nil_of_mem hmem)
  exact Nat.le_antisymm hle hge

end MDNSServer

/-! ## C6: register idempotence and uniqueness -/

/-- C6: starting from any table satisfying the `Map` invariant, executing
`register(R)` and then `register(R)` again leaves the table exactly as after
the first `register(R)`; the invariant is preserved, globally no two records
of the table share a `(type, name, data)` triple under deep equality of
data, and each record of `R` occurs exactly once in the table. -/
theorem register_idempotent_and_unique (m : MDNSServer.Table)
    (R : List MDNSRecord) (h : MDNSServer.Inv m) :
    MDNSServer.register (MDNSServer.register m R) R =
      MDNSServer.register m R ∧
    MDNSServer.Inv (MDNSServer.register m R) ∧
    (MDNSServer.allRecords (MDNSServer.register m R)).Pairwise
      (fun a b => MDNSServer.isDuplicate a b = false) ∧
    (∀ r ∈ R, MDNSServer.countTriple (MDNSServer.register m R) r = 1) := by
  have hinv := MDNSServer.register_inv R h
  exact ⟨MDNSServer.register_eq_of_all_present R
      (MDNSServer.register_present R m),
    hinv,
    MDNSServer.inv_pairwise_allRecords _ hinv,
    fun r hr => MDNSServer.countTriple_eq_one_of_present hinv
      (MDNSServer.register_present R m r hr)⟩

/-- C6 (witness): double-registering a two-record list (with a duplicate
triple inside the list itself) into the empty table. -/
theorem register_idempotent_and_unique_witness :
    MDNSServer.Inv [] ∧
    (MDNSServer.register (MDNSServer.register []
        [⟨.PTR, "a.local", 120, .ptr "x"⟩, ⟨.SRV, "a.local", 120,
          .srv ⟨80, "h.local"⟩⟩])
      [⟨.PTR, "a.local", 120, .ptr "x"⟩, ⟨.SRV, "a.local", 120,
        .srv ⟨80, "h.local"⟩⟩] =
      MDNSServer.register []
        [⟨.PTR, "a.local", 120, .ptr "x"⟩, ⟨.SRV, "a.local", 120,
          .srv ⟨80, "h.local"⟩⟩] ∧
    MDNSServer.Inv (MDNSServer.register []
      [⟨.PTR, "a.local", 120, .ptr "x"⟩, ⟨.SRV, "a.local", 120,
        .srv ⟨80, "h.local"⟩⟩]) ∧
    (MDNSServer.allRecords (MDNSServer.register []
      [⟨.PTR, "a.local", 120, .ptr "x"⟩, ⟨.SRV, "a.local", 120,
        .srv ⟨80, "h.local"⟩⟩])).Pairwise
      (fun a b => MDNSServer.isDuplicate a b = false) ∧
    (∀ r ∈ [(⟨.PTR, "a.local", 120, .ptr "x"⟩ : MDNSRecord),
        ⟨.SRV, "a.local", 120, .srv ⟨80, "h.local"⟩⟩],
      MDNSServer.countTriple (MDNSServer.register []
        [⟨.PTR, "a.local", 120, .ptr "x"⟩, ⟨.SRV, "a.local", 120,
          .srv ⟨80, "h.local"⟩⟩]) r = 1)) :=
  ⟨by decide, register_idempotent_and_unique [] _ (by decide)⟩

/-! ## C1: unregister name matching -/

/-- C1 (counterexample): the claim says `unregister` removes records whose
names match case-insensitively; but the filter in the source compares names
with `!==`, so a registered record whose name differs from the supplied
record's name only in ASCII case (`"Foo.local"` vs `"foo.local"`,
`nameEquals` holds) survives `unregister` unchanged. -/
theorem unregister_ignores_ascii_case :
    nameEquals "Foo.local" "foo.local" = true ∧
    MDNSServer.unregister
      [(.PTR, [⟨.PTR, "Foo.local", 120, .ptr "x"⟩])]
      [⟨.PTR, "foo.local", 0, .ptr "x"⟩] =
      [(.PTR, [⟨.PTR, "Foo.local", 120, .ptr "x"⟩])] := by
  decide

/-- C1 (amended): for every call `unregister(records)` and record `rp` in
`records`, every record previously held in the type bucket of `rp.type`
whose name equals `rp.name` exactly (case-sensitively, `!==`) is removed,
nothing else is removed, and buckets left empty are deleted. -/
theorem unregister_removes_exact_names (m : MDNSServer.Table)
    (rs : List MDNSRecord) (hk : MDNSServer.KeysNodup m)
    (hne : MDNSServer.NonemptyBuckets m) :
    MDNSServer.NonemptyBuckets (MDNSServer.unregister m rs) ∧
    (∀ (t : RType) (x : MDNSRecord),
      x ∈ (MDNSServer.mapGet (MDNSServer.unregister m rs) t).getD [] ↔
        (x ∈ (MDNSServer.mapGet m t).getD [] ∧
          ∀ rp ∈ rs, rp.type = t → x.name ≠ rp.name)) :=
  ⟨MDNSServer.unregister_nonempty rs hk hne,
   MDNSServer.unregister_bucket_mem rs m hk⟩

/-- C1 (witness): a two-record bucket where exactly the exact-name match is
removed. -/
theorem unregister_removes_exact_names_witness :
    MDNSServer.KeysNodup [(.PTR, [⟨.PTR, "a.local", 120, .ptr "x"⟩,
      ⟨.PTR, "b.local", 120, .ptr "y"⟩])] ∧
    MDNSServer.NonemptyBuckets [(.PTR, [⟨.PTR, "a.local", 120, .ptr "x"⟩,
      ⟨.PTR, "b.local", 120, .ptr "y"⟩])] ∧
    (MDNSServer.NonemptyBuckets (MDNSServer.unregister
      [(.PTR, [⟨.PTR, "a.local", 120, .ptr "x"⟩,
        ⟨.PTR, "b.local", 120, .ptr "y"⟩])]
      [⟨.PTR, "a.local", 0, .ptr "x"⟩]) ∧
    (∀ (t : RType) (x : MDNSRecord),
      x ∈ (MDNSServer.mapGet (MDNSServer.unregister
          [(.PTR, [⟨.PTR, "a.local", 120, .ptr "x"⟩,
            ⟨.PTR, "b.local", 120, .ptr "y"⟩])]
          [⟨.PTR, "a.local", 0, .ptr "x"⟩]) t).getD [] ↔
        (x ∈ (MDNSServer.mapGet
            [(.PTR, [⟨.PTR, "a.local", 120, .ptr "x"⟩,
              ⟨.PTR, "b.local", 120, .ptr "y"⟩])] t).getD [] ∧
          ∀ rp ∈ [(⟨.PTR, "a.local", 0, .ptr "x"⟩ : MDNSRecord)],
            rp.type = t → x.name ≠ rp.name))) :=
  ⟨by decide, by decide,
   unregister_removes_exact_names _ _ (by decide) (by decide)⟩

/-! ## ServiceType round-trip lemmas (for C3) -/

namespace ServiceType

theorem dropWhile_eq_self_of_none {l : List Char}
    (h : ∀ c ∈ l, isJSWs c = false) : l.dropWhile isJSWs = l := by
  cases l with
  | nil => rfl
  | cons a t =>
    rw [List.dropWhile_cons_of_neg]
    simp [h a (List.mem_cons_self a t)]

theorem jsTrim_eq_self {l : List Char}
    (h : ∀ c ∈ l, isJSWs c = false) : jsTrim l = l := by
  unfold jsTrim
  rw [dropWhile_eq_self_of_none h,
    dropWhile_eq_self_of_none (fun c hc => h c (List.mem_reverse.1 hc)),
    List.reverse_reverse]

theorem roundtrip_nosub (n p : List Char)
    (hdn : '.' ∉ n) (hdp : '.' ∉ p)
    (hwn : ∀ c ∈ n, isJSWs c = false) (hwp : ∀ c ∈ p, isJSWs c = false)
    (hns : n ≠ subMarker) (hps : p ≠ subMarker) :
    fromString (toString ⟨some n, some p, none⟩) =
      .ok ⟨some n, some p, none⟩ := by
  have ht : toString ⟨some n, some p, none⟩ =
      List.intercalate ['.'] ['_'::n, '_'::p] := rfl
  have hne : List.intercalate ['.'] ['_'::n, '_'::p] ≠ [] := by
    simp [List.intercalate, List.intersperse]
  have hsplit : (List.intercalate ['.'] ['_'::n, '_'::p]).splitOn '.' =
      ['_'::n, '_'::p] := by
    apply List.splitOn_intercalate
    · intro l hl
      rcases List.mem_cons.1 hl with rfl | hl
      · intro hmem
        rcases List.mem_cons.1 hmem with he | he
        · cases he
        · exact hdn he
      · rcases List.mem_cons.1 hl with rfl | hl
        · intro hmem
          rcases List.mem_cons.1 hmem with he | he
          · cases he
          · exact hdp he
        · cases hl
    · simp
  have htrimn : jsTrim ('_' :: n) = '_' :: n := by
    apply jsTrim_eq_self
    intro c hc
    rcases List.mem_cons.1 hc with rfl | hc
    · rfl
    · exact hwn c hc
  have htrimp : jsTrim ('_' :: p) = '_' :: p := by
    apply jsTrim_eq_self
    intro c hc
    rcases List.mem_cons.1 hc with rfl | hc
    · rfl
    · exact hwp c hc
  have hidx : indexOfOpt [n, p] subMarker = none := by
    simp [indexOfOpt, hns, hps]
  rw [ht]
  unfold fromString
  rw [if_neg hne]
  simp only [hsplit, List.map_cons, List.map_nil, htrimn, htrimp]
  have hsn : stripUnderscore ('_' :: n) = n := rfl
  have hsp : stripUnderscore ('_' :: p) = p := rfl
  rw [hsn, hsp, hidx]
  rfl

theorem roundtrip_sub (n p s : List Char)
    (hdn : '.' ∉ n) (hdp : '.' ∉ p) (hds : '.' ∉ s)
    (hwn : ∀ c ∈ n, isJSWs c = false) (hwp : ∀ c ∈ p, isJSWs c = false)
    (hws : ∀ c ∈ s, isJSWs c = false)
    (hss : s ≠ subMarker) :
    fromString (toString ⟨some n, some p, some s⟩) =
      .ok ⟨some n, some p, some s⟩ := by
  have ht : toString ⟨some n, some p, some s⟩ =
      List.intercalate ['.'] ['_'::s, '_'::subMarker, '_'::n, '_'::p] := rfl
  have hne : List.intercalate ['.']
      ['_'::s, '_'::subMarker, '_'::n, '_'::p] ≠ [] := by
    simp [List.intercalate, List.intersperse]
  have hsplit : (List.intercalate ['.']
      ['_'::s, '_'::subMarker, '_'::n, '_'::p]).splitOn '.' =
      ['_'::s, '_'::subMarker, '_'::n, '_'::p] := by
    apply List.splitOn_intercalate
    · intro l hl
      have hgen : ∀ (x : List Char), ('.' ∉ x) → '.' ∉ ('_' :: x) := by
        intro x hx hmem
        rcases List.mem_cons.1 hmem with he | he
        · cases he
        · exact hx he
      rcases List.mem_cons.1 hl with rfl | hl
      · exact hgen s hds
      · rcases List.mem_cons.1 hl with rfl | hl
        · exact hgen subMarker (by decide)
        · rcases List.mem_cons.1 hl with rfl | hl
          · exact hgen n hdn
          · rcases List.mem_cons.1 hl with rfl | hl
            · exact hgen p hdp
            · cases hl
    · simp
  have htrim : ∀ (x : List Char), (∀ c ∈ x, isJSWs c = false) →
      jsTrim ('_' :: x) = '_' :: x := by
    intro x hx
    apply jsTrim_eq_self
    intro c hc
    rcases List.mem_cons.1 hc with rfl | hc
    · rfl
    · exact hx c hc
  have hidx : indexOfOpt [s, subMarker, n, p] subMarker = some 1 := by
    simp [indexOfOpt, hss]
  rw [ht]
  unfold fromString
  rw [if_neg hne]
  simp only [hsplit, List.map_cons, List.map_nil, htrim s hws, htrim n hwn,
    htrim p hwp, htrim subMarker (by decide)]
  have hstrip : ∀ (x : List Char), stripUnderscore ('_' :: x) = x :=
    fun _ => rfl
  rw [hstrip s, hstrip subMarker, hstrip n, hstrip p, hidx]
  rfl

end ServiceType

/-! ## C3: ServiceType round-trip -/

/-- C3 (counterexample): the triple `(name = "x", protocol = "sub")` has
non-empty name and protocol, yet the parser throws on its serialization
(`"_x._sub"` makes `indexOf('sub')` hit position 1... with
`parts[subIndex + 1]` running off the end), so the round-trip fails. -/
theorem serviceType_roundtrip_fails_on_sub_protocol :
    (['x'] : List Char) ≠ [] ∧ ServiceType.subMarker ≠ ([] : List Char) ∧
    ServiceType.fromString (ServiceType.toString
        ⟨some ['x'], some ServiceType.subMarker, none⟩) ≠
      .ok ⟨some ['x'], some ServiceType.subMarker, none⟩ := by
  decide

/-- C3 (amended): for every triple `t = (name, protocol, subtype?)` with
`name` and `protocol` non-empty whose labels contain no `.` and no
whitespace, where neither `name` nor `protocol` is the label `sub` when
there is no subtype, and where the subtype is not the label `sub`,
`fromString(toString(t))` returns exactly `t`. -/
theorem serviceType_roundtrip (n p : List Char) (st : Option (List Char))
    (hn : n ≠ []) (hp : p ≠ [])
    (hdn : '.' ∉ n) (hdp : '.' ∉ p)
    (hwn : ∀ c ∈ n, ServiceType.isJSWs c = false)
    (hwp : ∀ c ∈ p, ServiceType.isJSWs c = false)
    (hst : match st with
      | some s => '.' ∉ s ∧ (∀ c ∈ s, ServiceType.isJSWs c = false) ∧
          s ≠ ServiceType.subMarker
      | none => n ≠ ServiceType.subMarker ∧ p ≠ ServiceType.subMarker) :
    ServiceType.fromString (ServiceType.toString ⟨some n, some p, st⟩) =
      .ok ⟨some n, some p, st⟩ := by
  cases st with
  | none => exact ServiceType.roundtrip_nosub n p hdn hdp hwn hwp hst.1 hst.2
  | some s =>
    exact ServiceType.roundtrip_sub n p s hdn hdp hst.1 hwn hwp
      hst.2.1 hst.2.2

/-- C3 (witness): the round-trip at `(http, tcp, printer-subtype "pr")`. -/
theorem serviceType_roundtrip_witness :
    (['h','t','t','p'] : List Char) ≠ [] ∧
    (['t','c','p'] : List Char) ≠ [] ∧
    ServiceType.fromString (ServiceType.toString
        ⟨some ['h','t','t','p'], some ['t','c','p'], some ['p','r']⟩) =
      .ok ⟨some ['h','t','t','p'], some ['t','c','p'], some ['p','r']⟩ :=
  ⟨by decide, by decide,
   serviceType_roundtrip ['h','t','t','p'] ['t','c','p'] (some ['p','r'])
     (by decide) (by decide) (by decide) (by decide) (by decide) (by decide)
     (by decide)⟩

/-! ## TXT codec lemmas (for C4, C5 and C9) -/

theorem utf8DecodeGo_nil (k : Nat) : utf8DecodeGo k [] = [] := by
  cases k <;> rfl

theorem utf8DecodeGo_encodeChar (c : Char) (k : Nat) (bs : List Nat) :
    utf8DecodeGo (k + 1) (utf8EncodeChar c ++ bs) = c :: utf8DecodeGo k bs := by
  unfold utf8EncodeChar
  rcases Nat.lt_or_ge c.toNat 0x80 with h1 | h1
  · rw [if_pos h1]
    simp only [List.append_eq, List.cons_append, List.nil_append, utf8DecodeGo, List.singleton_append]
    rw [if_pos h1, Char.ofNat_toNat]
  · rcases Nat.lt_or_ge c.toNat 0x800 with h2 | h2
    · rw [if_neg (by omega), if_pos h2]
      simp only [List.append_eq, List.cons_append, List.nil_append, utf8DecodeGo, List.singleton_append]
      rw [if_neg (by omega), if_neg (by omega), if_pos (by omega),
        if_pos (by simp [isCont]; omega)]
      have harith : (0xC0 + c.toNat / 64 - 0xC0) * 64 +
          (0x80 + c.toNat % 64 - 0x80) = c.toNat := by omega
      rw [harith, Char.ofNat_toNat]
    · rcases Nat.lt_or_ge c.toNat 0x10000 with h3 | h3
      · rw [if_neg (by omega), if_neg (by omega), if_pos h3]
        simp only [List.append_eq, List.cons_append, List.nil_append, utf8DecodeGo, List.singleton_append]
        rw [if_neg (by omega), if_neg (by omega), if_neg (by omega),
          if_pos (by omega), if_pos (by simp [isCont]; omega)]
        have harith : (0xE0 + c.toNat / 4096 - 0xE0) * 4096 +
            (0x80 + c.toNat / 64 % 64 - 0x80) * 64 +
            (0x80 + c.toNat % 64 - 0x80) = c.toNat := by omega
        rw [harith, Char.ofNat_toNat]
      · rw [if_neg (by omega), if_neg (by omega), if_neg (by omega)]
        simp only [List.append_eq, List.cons_append, List.nil_append, utf8DecodeGo, List.singleton_append]
        rw [if_neg (by omega), if_neg (by omega), if_neg (by omega),
          if_neg (by omega), if_pos (by simp [isCont]; omega)]
        have harith : (0xF0 + c.toNat / 262144 - 0xF0) * 262144 +
            (0x80 + c.toNat / 4096 % 64 - 0x80) * 4096 +
            (0x80 + c.toNat / 64 % 64 - 0x80) * 64 +
            (0x80 + c.toNat % 64 - 0x80) = c.toNat := by omega
        rw [harith, Char.ofNat_toNat]

theorem utf8DecodeGo_encode (s : List Char) :
    ∀ (k : Nat) (bs : List Nat),
      utf8DecodeGo (s.length + k) (utf8Encode s ++ bs) =
        s ++ utf8DecodeGo k bs := by
  induction s with
  | nil =>
    intro k bs
    simp [utf8Encode]
  | cons c cs ih =>
    intro k bs
    have hshape : utf8Encode (c :: cs) ++ bs =
        utf8EncodeChar c ++ (utf8Encode cs ++ bs) := by
      show (utf8EncodeChar c ++ utf8Encode cs) ++ bs = _
      rw [List.append_assoc]
    have hlen : (c :: cs).length + k = (cs.length + k) + 1 := by
      simp [List.length_cons]
      omega
    rw [hshape, hlen, utf8DecodeGo_encodeChar, ih k bs]
    rfl

theorem le_length_utf8Encode (s : List Char) :
    s.length ≤ (utf8Encode s).length := by
  induction s with
  | nil => simp [utf8Encode]
  | cons c cs ih =>
    have hc : 1 ≤ (utf8EncodeChar c).length := by
      simp only [utf8EncodeChar]
      split_ifs <;> simp
    show (c :: cs).length ≤ (utf8EncodeChar c ++ utf8Encode cs).length
    rw [List.length_append, List.length_cons]
    omega

theorem utf8Decode_encode (s : List Char) :
    utf8Decode (utf8Encode s) = s := by
  unfold utf8Decode
  have hge := le_length_utf8Encode s
  have hlen : (utf8Encode s).length =
      s.length + ((utf8Encode s).length - s.length) := by omega
  rw [hlen, ← List.append_nil (utf8Encode s), utf8DecodeGo_encode,
    utf8DecodeGo_nil, List.append_nil]

theorem utf8Encode_ascii_front (k v : List Char)
    (hk : ∀ c ∈ k, c.toNat < 128) :
    utf8Encode (k ++ v) = k.map Char.toNat ++ utf8Encode v := by
  induction k with
  | nil => rfl
  | cons c t ih =>
    have hc : utf8EncodeChar c = [c.toNat] := by
      unfold utf8EncodeChar
      rw [if_pos (hk c (List.mem_cons_self c t))]
    show utf8EncodeChar c ++ utf8Encode (t ++ v) = _
    rw [hc, ih (fun x hx => hk x (List.mem_cons_of_mem _ hx))]
    rfl

theorem indexOfOpt_append_cons {xs ys : List Char} {x : Char}
    (h : ∀ a ∈ xs, a ≠ x) :
    ServiceType.indexOfOpt (xs ++ x :: ys) x = some xs.length := by
  induction xs with
  | nil => simp [ServiceType.indexOfOpt]
  | cons a t ih =>
    have ha : ¬ (a = x) := h a (List.mem_cons_self a t)
    show ServiceType.indexOfOpt (a :: (t ++ x :: ys)) x = _
    rw [ServiceType.indexOfOpt, if_neg ha,
      ih (fun b hb => h b (List.mem_cons_of_mem _ hb))]
    rfl

theorem asciiChar_toNat {c : Char} (h : c.toNat < 128) :
    asciiChar c.toNat = c := by
  unfold asciiChar
  rw [Nat.mod_eq_of_lt h, Char.ofNat_toNat]

theorem decodeEntry_encode (k v : List Char)
    (hk : ∀ c ∈ k, c.toNat < 128) (hne : '=' ∉ k) :
    decodeEntry (utf8Encode (k ++ '=' :: v)) = (k, utf8Encode v) := by
  have henc : utf8Encode (k ++ '=' :: v) =
      k.map Char.toNat ++ 61 :: utf8Encode v := by
    rw [utf8Encode_ascii_front k ('=' :: v) hk]
    rfl
  have hascii : (k.map Char.toNat ++ 61 :: utf8Encode v).map asciiChar =
      k ++ '=' :: (utf8Encode v).map asciiChar := by
    rw [List.map_append, List.map_map]
    have h0 : ∀ c ∈ k, (asciiChar ∘ Char.toNat) c = id c :=
      fun c hc => asciiChar_toNat (hk c hc)
    rw [List.map_congr_left h0, List.map_id]
    rfl
  have hidx : ServiceType.indexOfOpt
      ((k.map Char.toNat ++ 61 :: utf8Encode v).map asciiChar) '=' =
      some k.length := by
    rw [hascii]
    exact indexOfOpt_append_cons (fun a ha hax => hne (hax ▸ ha))
  rw [henc]
  simp only [decodeEntry, hidx]
  have htake : ((k.map Char.toNat ++ 61 :: utf8Encode v).map asciiChar).take
      k.length = k := by
    rw [hascii]
    exact List.take_left k ('=' :: (utf8Encode v).map asciiChar)
  have hdrop : (k.map Char.toNat ++ 61 :: utf8Encode v).drop
      (k.length + 1) = utf8Encode v := by
    have hshape : k.map Char.toNat ++ 61 :: utf8Encode v =
        (k.map Char.toNat ++ [61]) ++ utf8Encode v := by
      rw [List.append_assoc]
      rfl
    have hlen : k.length + 1 = (k.map Char.toNat ++ [61]).length := by
      simp
    rw [hshape, hlen, List.drop_left]
  rw [htake, hdrop]

theorem decodePair_encode (k v : List Char)
    (hk : ∀ c ∈ k, c.toNat < 128) (hne : '=' ∉ k) :
    decodePair (utf8Encode (k ++ '=' :: v)) = (k, v) := by
  simp only [decodePair]
  rw [decodeEntry_encode k v hk hne]
  simp [utf8Decode_encode]

theorem insertEntry_fresh {m : List (List Char × List Char)}
    {k v : List Char} (h : k ∉ m.map Prod.fst) :
    insertEntry m k v = m ++ [(k, v)] := by
  induction m with
  | nil => rfl
  | cons e t ih =>
    obtain ⟨k1, v1⟩ := e
    simp only [List.map_cons, List.mem_cons] at h
    push_neg at h
    have hk1 : ¬ (k1 = k) := fun he => h.1 he.symm
    simp only [insertEntry, if_neg hk1, List.cons_append]
    rw [ih h.2]

theorem decodeTXT_step (acc : List (List Char × List Char))
    (buf : List Nat) :
    (match decodeOne buf with
      | [(k, v)] => insertEntry acc k v
      | _ => acc) =
      insertEntry acc (decodePair buf).1 (decodePair buf).2 := rfl

theorem decodeTXT_foldl (bufs : List (List Nat)) :
    decodeTXT bufs = bufs.foldl
      (fun acc buf => insertEntry acc (decodePair buf).1 (decodePair buf).2)
      [] := rfl

theorem foldl_insert_all_fresh :
    ∀ (entries : List (List Char × List Char))
      (acc : List (List Char × List Char)),
      (entries.map Prod.fst).Nodup →
      (∀ k ∈ entries.map Prod.fst, k ∉ acc.map Prod.fst) →
      entries.foldl (fun r e => insertEntry r e.1 e.2) acc = acc ++ entries := by
  intro entries
  induction entries with
  | nil =>
    intro acc _ _
    simp
  | cons e t ih =>
    intro acc hnodup hdisj
    obtain ⟨k1, v1⟩ := e
    simp only [List.map_cons, List.nodup_cons] at hnodup
    have hfresh : k1 ∉ acc.map Prod.fst :=
      hdisj k1 (by simp)
    show t.foldl (fun r e => insertEntry r e.1 e.2) (insertEntry acc k1 v1) =
      acc ++ (k1, v1) :: t
    rw [insertEntry_fresh hfresh, ih (acc ++ [(k1, v1)]) hnodup.2]
    · simp
    · intro k hk
      simp only [List.map_append, List.mem_append, List.map_cons,
        List.mem_singleton, List.map_nil]
      push_neg
      constructor
      · exact hdisj k (by simp [hk])
      · intro he
        exact hnodup.1 (he ▸ hk)

theorem foldl_insert_decodePair (bufs : List (List Nat))
    (acc : List (List Char × List Char)) :
    bufs.foldl
      (fun r buf => insertEntry r (decodePair buf).1 (decodePair buf).2)
      acc =
    (bufs.map decodePair).foldl (fun r e => insertEntry r e.1 e.2) acc := by
  induction bufs generalizing acc with
  | nil => rfl
  | cons b t ih => exact ih (insertEntry acc (decodePair b).1 (decodePair b).2)

theorem lookupEntry_insertEntry (m : List (List Char × List Char))
    (k q v : List Char) :
    lookupEntry (insertEntry m k v) q =
      if q = k then some v else lookupEntry m q := by
  induction m with
  | nil =>
    by_cases hq : q = k
    · subst hq
      simp [insertEntry, lookupEntry]
    · have hk : ¬ (k = q) := fun h => hq h.symm
      simp [insertEntry, lookupEntry, hq, hk]
  | cons e t ih =>
    obtain ⟨k1, v1⟩ := e
    by_cases h1 : k1 = k
    · subst h1
      by_cases hq : q = k1
      · subst hq
        simp [insertEntry, lookupEntry]
      · have hk : ¬ (k1 = q) := fun h => hq h.symm
        simp [insertEntry, lookupEntry, hq, hk]
    · by_cases hq : q = k1
      · subst hq
        simp [insertEntry, lookupEntry, h1]
      · have hk : ¬ (k1 = q) := fun h => hq h.symm
        simp [insertEntry, lookupEntry, h1, hk, ih]

theorem lookup_foldl_insert :
    ∀ (entries : List (List Char × List Char))
      (acc : List (List Char × List Char)) (q : List Char),
      lookupEntry (entries.foldl (fun r e => insertEntry r e.1 e.2) acc) q =
        (match (entries.filter (fun e => e.1 = q)).getLast? with
          | some e => some e.2
          | none => lookupEntry acc q) := by
  intro entries
  induction entries with
  | nil =>
    intro acc q
    rfl
  | cons e t ih =>
    intro acc q
    show lookupEntry (t.foldl (fun r x => insertEntry r x.1 x.2)
      (insertEntry acc e.1 e.2)) q = _
    rw [ih]
    by_cases he : e.1 = q
    · have hf : (e :: t).filter (fun x => x.1 = q) =
          e :: t.filter (fun x => x.1 = q) := by
        simp [List.filter_cons, he]
      rw [hf]
      cases hrf : (t.filter (fun x => x.1 = q)).getLast? with
      | none =>
        have hnil : t.filter (fun x => x.1 = q) = [] := by
          rwa [List.getLast?_eq_none_iff] at hrf
        rw [hnil]
        simp only [List.getLast?_singleton]
        rw [lookupEntry_insertEntry, if_pos he.symm]
      | some e2 =>
        cases hfl : t.filter (fun x => x.1 = q) with
        | nil =>
          rw [hfl] at hrf
          cases hrf
        | cons x xs =>
          rw [hfl] at hrf
          rw [List.getLast?_cons_cons, hrf]
    · have hf : (e :: t).filter (fun x => x.1 = q) =
          t.filter (fun x => x.1 = q) := by
        simp [List.filter_cons, he]
      rw [hf]
      cases hrf : (t.filter (fun x => x.1 = q)).getLast? with
      | none =>
        rw [lookupEntry_insertEntry, if_neg (fun h => he h.symm)]
      | some e2 => rfl

/-! ## C4: TXT encode/decode round-trip -/

/-- C4 (counterexample): a key made of the single non-ASCII character
U+00E9 contains no `=`, yet the round-trip fails: its UTF-8 bytes
`C3 A9` are mangled by the `ascii` view into the two characters `C)`,
so the decoded map binds the key `"C)"`, not `"é"`. -/
theorem decodeTXT_encodeTXT_fails_on_nonascii_key :
    ('=' ∉ [Char.ofNat 233]) ∧
    decodeTXT (encodeTXT [([Char.ofNat 233], ['x'])]) ≠
      [([Char.ofNat 233], ['x'])] := by
  decide

/-- C4 (amended): for every TXT map `m` whose values are all strings and
whose keys are ASCII-only (every character below code point 128) and contain
no `=` character, `decodeTXT(encodeTXT(m), false)` equals `m` exactly. -/
theorem decodeTXT_encodeTXT_roundtrip (m : List (List Char × List Char))
    (hkeys : (m.map Prod.fst).Nodup)
    (hgood : ∀ kv ∈ m, (∀ c ∈ kv.1, c.toNat < 128) ∧ '=' ∉ kv.1) :
    decodeTXT (encodeTXT m) = m := by
  have hmap : (encodeTXT m).map decodePair = m := by
    unfold encodeTXT
    rw [List.map_map]
    have h0 : ∀ kv ∈ m,
        (decodePair ∘ (fun kv => utf8Encode (kv.1 ++ '=' :: kv.2))) kv =
          id kv := by
      intro kv hkv
      obtain ⟨hk, hne⟩ := hgood kv hkv
      show decodePair (utf8Encode (kv.1 ++ '=' :: kv.2)) = kv
      rw [decodePair_encode kv.1 kv.2 hk hne]
    rw [List.map_congr_left h0, List.map_id]
  rw [decodeTXT_foldl, foldl_insert_decodePair, hmap,
    foldl_insert_all_fresh m [] hkeys (by simp)]
  rfl

/-- C4 (witness): the round-trip on a two-entry map whose second value
itself contains `=`. -/
theorem decodeTXT_encodeTXT_witness :
    ((([(['a'], ['b']), (['c'], ['d', '=', 'e'])] :
        List (List Char × List Char)).map Prod.fst).Nodup) ∧
    decodeTXT (encodeTXT [(['a'], ['b']), (['c'], ['d', '=', 'e'])]) =
      [(['a'], ['b']), (['c'], ['d', '=', 'e'])] :=
  ⟨by decide,
   decodeTXT_encodeTXT_roundtrip [(['a'], ['b']), (['c'], ['d', '=', 'e'])]
     (by decide) (by decide)⟩

/-! ## C9: duplicate TXT keys -/

/-- C9: when two or more items of the input list decode to the same key,
the mapping `decodeTXT` returns binds that key to the value of the last
such item in list order (later entries overwrite earlier ones). -/
theorem decodeTXT_last_duplicate_wins (bufs : List (List Nat))
    (q : List Char) (e : List Char × List Char)
    (h2 : 2 ≤ ((bufs.map decodePair).filter (fun x => x.1 = q)).length)
    (hl : ((bufs.map decodePair).filter (fun x => x.1 = q)).getLast? =
      some e) :
    lookupEntry (decodeTXT bufs) q = some e.2 := by
  rw [decodeTXT_foldl, foldl_insert_decodePair, lookup_foldl_insert, hl]

/-- C9 (witness): `["a=1", "b=0", "a=2"]` decodes with `a` bound to `"2"`. -/
theorem decodeTXT_last_duplicate_wins_witness :
    2 ≤ ((([[97, 61, 49], [98, 61, 48], [97, 61, 50]] :
        List (List Nat)).map decodePair).filter
      (fun x => x.1 = ['a'])).length ∧
    ((([[97, 61, 49], [98, 61, 48], [97, 61, 50]] :
        List (List Nat)).map decodePair).filter
      (fun x => x.1 = ['a'])).getLast? = some (['a'], ['2']) ∧
    lookupEntry (decodeTXT [[97, 61, 49], [98, 61, 48], [97, 61, 50]])
      ['a'] = some ['2'] :=
  ⟨by decide, by decide,
   decodeTXT_last_duplicate_wins [[97, 61, 49], [98, 61, 48], [97, 61, 50]]
     ['a'] (['a'], ['2']) (by decide) (by decide)⟩

/-! ## C2: announce re-transmission cadence -/

/-- C2 (counterexample): the claim states the waits between consecutive
transmissions are 1000 ms, 3000 ms, 9000 ms, …; in the code `delay` is
multiplied by `REANNOUNCE_FACTOR` *before* the next broadcast is scheduled,
so the first wait is 3000 ms and the code's wait sequence differs from the
claimed one. -/
theorem announce_first_wait_is_3000_not_1000 :
    (Registry.announceWaits 1000).head? = some 3000 ∧
    (Registry.specAnnounceWaits 1000).head? = some 1000 ∧
    Registry.announceWaits 1000 ≠ Registry.specAnnounceWaits 1000 := by
  decide

/-- C2 (amended): for a service that stays started, is not destroyed and
sees no transport error, the record set is transmitted immediately and the
waits between consecutive transmissions are 3000 ms, 9000 ms, 27000 ms, …,
each wait equal to the previous times 3 starting from the initial
`delay = 1000` (whose own wait is never used), with no further transmission
scheduled once the next delay would be ≥ 3,600,000 ms. -/
theorem announce_waits_times_three_from_3000 :
    Registry.announceWaits 1000 =
      [3000, 9000, 27000, 81000, 243000, 729000, 2187000] ∧
    List.Chain' (fun a b => b = a * Registry.REANNOUNCE_FACTOR)
      (1000 :: Registry.announceWaits 1000) ∧
    Registry.REANNOUNCE_MAX_MS ≤ 2187000 * Registry.REANNOUNCE_FACTOR := by
  have h : Registry.announceWaits 1000 =
      [3000, 9000, 27000, 81000, 243000, 729000, 2187000] := by decide
  refine ⟨h, ?_, by decide⟩
  rw [h]
  norm_num [List.chain'_cons, Registry.REANNOUNCE_FACTOR]

/-! ## C5: decodeTXT and empty keys -/

/-- C5 (code bug): `decodeTXT` is documented (and specified) to discard
items that do not yield a proper key, but the `entries.length === 1` guard
always passes, so the buffer `"=x"` produces a binding of the empty key:
`decodeTXT([Buffer.from("=x")], false)` is `{ "": "x" }`. -/
theorem decodeTXT_keeps_empty_key :
    decodeTXT [[61, 120]] = [([], ['x'])] := by
  decide

/-! ## C8: Service.stop -/

/-- C8: for a started but unpublished service, `stop()` emits no `down`
event and leaves `published` unchanged at `false`; for a started, published
service, `stop()` emits exactly one `down` event and sets `published` to
`false`. -/
theorem service_stop_down_events (s : Service.State) :
    (s.started = true → s.published = false →
      Service.stop s = ({ s with started := false }, 0)) ∧
    (s.started = true → s.published = true →
      Service.stop s = ({ s with started := false, published := false }, 1)) := by
  constructor <;> intro h1 h2 <;> simp [Service.stop, h1, h2]

/-- C8 (witness): evaluating `stop` on a started unpublished service and on
a started published service. -/
theorem service_stop_down_events_witness :
    Service.stop ⟨true, false, false⟩ = (⟨false, false, false⟩, 0) ∧
    Service.stop ⟨true, true, false⟩ = (⟨false, false, false⟩, 1) :=
  ⟨(service_stop_down_events ⟨true, false, false⟩).1 rfl rfl,
   (service_stop_down_events ⟨true, true, false⟩).2 rfl rfl⟩

/-! ## C10: Browser.start idempotence -/

/-- C10: `Browser.start` is idempotent — calling `start()` on a browser that
is already started registers no second response listener, issues no
additional PTR queries and leaves the known-services list unchanged, so
`start(); start()` equals `start()` observationally. -/
theorem browser_start_idempotent (filter : Option Browser.Filter)
    (b : Browser.State) :
    Browser.start filter (Browser.start filter b) = Browser.start filter b := by
  by_cases h : b.listening <;> simp [Browser.start, Browser.update, h]

/-! ## C7: probe conflict detection -/

/-- C7: during a probe session, responses delivered before the first probe
query has been sent never trigger a conflict (the session state is
unchanged); once the first probe is sent, a response triggers a conflict iff
some record among its answers or additionals has a name equal to the
service fqdn under ASCII-only case-insensitive comparison — which is
exactly what `nameEquals` computes. -/
theorem probe_conflict_iff (fqdn : String) :
    (∀ ps : List Registry.ProbePacket,
      Registry.probeRun fqdn (ps.map Registry.ProbeEvent.response) =
        ⟨false, false⟩) ∧
    (∀ (st : Registry.ProbeState) (p : Registry.ProbePacket),
      st.sent = true →
      ((Registry.probeOnResponse fqdn st p).conflict = true ↔
        (st.conflict = true ∨
          ∃ r ∈ p.answers ++ p.additionals, nameEquals r.name fqdn = true))) ∧
    (∀ a b : String,
      nameEquals a b = true ↔ a.data.map asciiLower = b.data.map asciiLower) := by
  refine ⟨?_, ?_, ?_⟩
  · intro ps
    induction ps with
    | nil => rfl
    | cons p t ih =>
      have hstep : Registry.probeStep fqdn ⟨false, false⟩
          (Registry.ProbeEvent.response p) = ⟨false, false⟩ := by
        simp [Registry.probeStep, Registry.probeOnResponse]
      simpa [Registry.probeRun, hstep] using ih
  · intro st p h
    have hsent : ¬ (st.sent = false) := by simp [h]
    by_cases hc : (p.answers.any (fun a => nameEquals a.name fqdn) ||
        p.additionals.any (fun a => nameEquals a.name fqdn)) = true
    · simp only [Registry.probeOnResponse]
      rw [if_neg hsent, if_pos hc]
      constructor
      · intro _
        rw [Bool.or_eq_true, List.any_eq_true, List.any_eq_true] at hc
        rcases hc with ⟨r, hr, hne⟩ | ⟨r, hr, hne⟩
        · exact Or.inr ⟨r, List.mem_append.2 (Or.inl hr), hne⟩
        · exact Or.inr ⟨r, List.mem_append.2 (Or.inr hr), hne⟩
      · intro _; rfl
    · simp only [Registry.probeOnResponse]
      rw [if_neg hsent, if_neg hc]
      constructor
      · intro hcf; exact Or.inl hcf
      · rintro (hcf | ⟨r, hr, hne⟩)
        · exact hcf
        · exfalso
          apply hc
          rw [Bool.or_eq_true, List.any_eq_true, List.any_eq_true]
          rcases List.mem_append.1 hr with h1 | h1
          · exact Or.inl ⟨r, h1, hne⟩
          · exact Or.inr ⟨r, h1, hne⟩
  · intro a b
    simp [nameEquals]

/-- C7 (witness): a response carrying an answer whose name differs from the
fqdn only in ASCII case, delivered after the first probe was sent. -/
theorem probe_conflict_iff_witness :
    ((Registry.ProbeState.mk true false).sent = true) ∧
    ((Registry.probeOnResponse "Foo._http._tcp.local" ⟨true, false⟩
        ⟨[⟨.SRV, "foo._http._tcp.local", 120, .srv ⟨80, "h.local"⟩⟩], []⟩).conflict = true ↔
      ((Registry.ProbeState.mk true false).conflict = true ∨
        ∃ r ∈ ([⟨.SRV, "foo._http._tcp.local", 120, .srv ⟨80, "h.local"⟩⟩] :
            List MDNSRecord) ++ [],
          nameEquals r.name "Foo._http._tcp.local" = true)) :=
  ⟨rfl, (probe_conflict_iff "Foo._http._tcp.local").2.1 ⟨true, false⟩
    ⟨[⟨.SRV, "foo._http._tcp.local", 120, .srv ⟨80, "h.local"⟩⟩], []⟩ rfl⟩
